import Mathlib

/-!
Shallow embedding of `src/my_packages/WebSitemapScraper.py`.

The module scrapes a website's sitemap tree: `collect_sitemaps` reads
`robots.txt`, `process_sitemap` recursively walks sitemap documents,
`process_links` decomposes every URL into `subdir1..subdirM` path-segment
columns of a pandas DataFrame, and `export_to_csv` writes one CSV file per
sitemap identifier.

Python strings are modelled as Lean `String` / `List Char`; the pandas
DataFrame as a `Frame` (an ordered column-name list plus association-list
rows, where an absent entry reads as null/NaN); the network as an
environment `resp : String -> Option (List String)` giving the parsed
`<loc>` values of a document (`none` = transport failure, which
`retrieve_web_data` turns into the empty text and hence zero `<loc>`
entries); Python exceptions that escape a function as an `Option` result
(`none` = the exception propagates); and the unbounded recursion of
`process_sitemap` with explicit fuel (`none` at fuel 0 = the recursion did
not finish within the given depth).
-/

/-- Helper for Python `str.startswith`: is the first list a prefix of the second. -/
def isPre : List Char → List Char → Bool
  | [], _ => true
  | _ :: _, [] => false
  | a :: as, b :: bs => a = b && isPre as bs

/-- Python `s.startswith(p)` on strings. -/
def startsWithP (s p : String) : Bool := isPre p.toList s.toList

/-- Python `s.endswith(suf)` on strings. -/
def endsWithP (s suf : String) : Bool := isPre suf.toList.reverse s.toList.reverse

/-- Python `s.strip(c)` for a single strip character: drop `c` from both ends. -/
def pyStrip (c : Char) (s : List Char) : List Char :=
  ((s.dropWhile (fun a => a = c)).reverse.dropWhile (fun a => a = c)).reverse

/-- Python `s.strip()` with no argument: drop whitespace from both ends. -/
def pyStripWs (s : List Char) : List Char :=
  ((s.dropWhile Char.isWhitespace).reverse.dropWhile Char.isWhitespace).reverse

/-- Python `s.split(sep)` for a one-character separator `sep`:
`"".split(sep) = [""]`, adjacent separators yield empty pieces, and the
result is never the empty list. -/
def pySplit (sep : Char) : List Char → List (List Char)
  | [] => [[]]
  | c :: cs =>
    if c = sep then [] :: pySplit sep cs
    else
      match pySplit sep cs with
      | [] => [[c]]
      | w :: ws => (c :: w) :: ws

/-- Python `s.split(": ")` for the two-character separator used on
`robots.txt` lines: split at every non-overlapping occurrence of `": "`. -/
def splitColonSpace : List Char → List (List Char)
  | [] => [[]]
  | ':' :: ' ' :: cs => [] :: splitColonSpace cs
  | c :: cs =>
    match splitColonSpace cs with
    | [] => [[c]]
    | w :: ws => (c :: w) :: ws

/-- Decimal digit to character, as Python `str` renders it. -/
def digitChar (d : Nat) : Char :=
  match d with
  | 0 => '0' | 1 => '1' | 2 => '2' | 3 => '3' | 4 => '4'
  | 5 => '5' | 6 => '6' | 7 => '7' | 8 => '8' | _ => '9'

/-- Least-significant-first decimal digits of `n`, with explicit fuel
(the fuel `n + 1` always suffices). -/
def natDigitsRev : Nat → Nat → List Nat
  | 0, _ => []
  | fuel + 1, n => if n < 10 then [n] else n % 10 :: natDigitsRev fuel (n / 10)

/-- Python `str(n)` for a natural number: its decimal rendering. -/
def natRepr (n : Nat) : List Char :=
  ((natDigitsRev (n + 1) n).reverse).map digitChar

/-- Evaluation of a least-significant-first digit list, used to invert
the decimal rendering. -/
def ofDigitsRev : List Nat → Nat
  | [] => 0
  | d :: ds => d + 10 * ofDigitsRev ds

/-- The column name `"subdir" + str(j)` built by `process_links`. -/
def subdirName (j : Nat) : String := String.mk ("subdir".toList ++ natRepr j)

/-- The URL prefix hard-coded in `process_links`. -/
def url_prefix : String := "https://www.datacamp.com/"

/-- A pandas cell of this program: a string or null (None/NaN). -/
abbrev Cell := Option String

/-- `split_url` from `process_links`: strip the configured prefix, strip
`/` from both ends, split on `/`; a URL not starting with the prefix
yields the single-element sentinel `[None]`. -/
def split_url (link : String) : List Cell :=
  if startsWithP link url_prefix then
    (pySplit '/' (pyStrip '/' (link.toList.drop ("https://www.datacamp.com/".toList.length)))).map
      (fun w => some (String.mk w))
  else [none]

/-- The running `maximum_depth` computed by the row loop of `process_links`. -/
def maxDepth (links : List String) : Nat :=
  links.foldl (fun m l => max m (split_url l).length) 0

/-- A DataFrame row: cells keyed by column name; the first binding wins,
an absent binding reads as null (NaN of a column added by another row). -/
abbrev Row := List (String × Cell)

/-- Read a cell of a row; absent column = null. -/
def rowGet : Row → String → Cell
  | [], _ => none
  | (c, v) :: r, c' => if c = c' then v else rowGet r c'

/-- First binding of a column in a row, distinguishing an absent column
from a stored null. -/
def rowFind : Row → String → Option Cell
  | [], _ => none
  | (c, v) :: r, c' => if c = c' then some v else rowFind r c'

/-- Assign the column/value pairs `cvs` into a row (new bindings shadow old). -/
def assignRow (r : Row) (cvs : List (String × Cell)) : Row :=
  cvs.foldl (fun acc p => (p.1, p.2) :: acc) r

/-- A pandas DataFrame: ordered column names plus rows. -/
structure Frame where
  cols : List String
  rows : List Row
deriving DecidableEq

/-- `df.loc[idx, cs] = vs`: create any of the columns `cs` that are
missing (appended in list order, NaN elsewhere) and write the values
into row `idx`. -/
def locAssign (f : Frame) (idx : Nat) (cvs : List (String × Cell)) : Frame :=
  { cols := cvs.foldl (fun acc p => if p.1 ∈ acc then acc else acc ++ [p.1]) f.cols
    rows := f.rows.set idx (assignRow (f.rows.getD idx []) cvs) }

/-- The row loop of `process_links` over the `iterrows()` snapshot:
reads `record["Links"]`, splits it, tracks the running maximum depth and
assigns `subdir1..subdirk` into the frame.  A missing or null `Links`
cell raises in Python (`None` result). -/
def processRowsLoop : Nat → List Row → Frame → Nat → Option (Frame × Nat)
  | _, [], df, maxd => some (df, maxd)
  | idx, record :: rest, df, maxd =>
    match rowGet record "Links" with
    | none => none
    | some link =>
      let subdirs := split_url link
      let names := (List.range subdirs.length).map (fun j => subdirName (j + 1))
      processRowsLoop (idx + 1) rest (locAssign df idx (names.zip subdirs))
        (max maxd subdirs.length)

/-- `process_links`: the row loop followed by the fill-in loop that adds
any still-missing `subdir1..subdirM` columns. -/
def process_links (f : Frame) : Option Frame :=
  (processRowsLoop 0 f.rows f 0).map (fun p =>
    (List.range p.2).foldl (fun df depth =>
      let c := subdirName (depth + 1)
      if c ∈ df.cols then df else { df with cols := df.cols ++ [c] }) p.1)

/-- `pd.DataFrame(links, columns=["Links"])`. -/
def mkFrame (links : List String) : Frame :=
  { cols := ["Links"], rows := links.map (fun l => [("Links", some l)]) }

/-- `identifier = url_of_sitemap.split("/")[-1]`: the final `/`-separated
segment of a sitemap URL, used as its storage key. -/
def identifier (u : String) : String :=
  String.mk ((pySplit '/' u.toList).getLastD [])

/-- The `sitemaps_frames` dictionary: identifier to decomposed table. -/
abbrev Frames := List (String × Frame)

/-- Python dict assignment `d[k] = v`: replace in place when the key is
present, append otherwise. -/
def storeFrame (k : String) (v : Frame) (fs : Frames) : Frames :=
  if fs.any (fun p => p.1 = k) then fs.map (fun p => if p.1 = k then (k, v) else p)
  else fs ++ [(k, v)]

/-- Number of entries of the collection stored under key `k`. -/
def countKey (k : String) (fs : Frames) : Nat :=
  (fs.filter (fun p => p.1 = k)).length

/-- The body of the `for location in parser.find_all("loc")` loop of
`process_sitemap`, parameterised by the recursive call `visit` at the
next fuel level: every `.xml` link is recursively visited (the append to
`links` itself is accounted for by the caller, which hands the full
`<loc>` list to `process_links`). -/
def visitChildren (visit : String → Frames → Option Frames) :
    List String → Frames → Option Frames
  | [], frames => some frames
  | l :: ls, frames =>
    if endsWithP l ".xml" then
      (visit l frames).bind (fun fs => visitChildren visit ls fs)
    else visitChildren visit ls frames

/-- `process_sitemap` with explicit recursion fuel.  `resp url` is the
parsed `<loc>` list of the document at `url` (`none` = transport failure,
turned into zero entries, mirroring `retrieve_web_data` returning `""`).
Fetches the document, visits each `.xml` child in document order, then
builds `pd.DataFrame(links)`, decomposes it and stores it under
`identifier url`.  Result `none` = the recursion exceeded the fuel (or a
Python exception escaped `process_links`). -/
def visitSitemap (resp : String → Option (List String)) :
    Nat → String → Frames → Option Frames
  | 0 => fun _ _ => none
  | n + 1 => fun url frames =>
    let links := (resp url).getD []
    (visitChildren (visitSitemap resp n) links frames).bind (fun fs =>
      (process_links (mkFrame links)).map (fun t => storeFrame (identifier url) t fs))

/-- Observable events of one traversal, used to state ordering facts:
`record parent child` = `links.append(location.text)` executed in
`parent`'s loop for `child`; `visitStart u` = `process_sitemap(u)`
entered; `store id` = `self.sitemaps_frames[id] = dataframe`. -/
inductive Ev where
  | record (parent child : String)
  | visitStart (url : String)
  | store (id : String)
deriving DecidableEq

/-- Event trace of the `<loc>` loop, parameterised by the recursive
trace function: each link is first recorded, then (when it ends in
`.xml`) recursively visited. -/
def traceChildren (visitT : String → List Ev) (parent : String) :
    List String → List Ev
  | [] => []
  | l :: ls =>
    Ev.record parent l ::
      ((if endsWithP l ".xml" then visitT l else []) ++ traceChildren visitT parent ls)

/-- Event trace of `process_sitemap` with fuel (truncated at fuel 0). -/
def traceVisit (resp : String → Option (List String)) : Nat → String → List Ev
  | 0 => fun _ => []
  | n + 1 => fun url =>
    let links := (resp url).getD []
    Ev.visitStart url ::
      (traceChildren (traceVisit resp n) url links ++ [Ev.store (identifier url)])

/-- The extraction loop of `collect_sitemaps` over the lines of
`robots.txt`: for each line starting with `"Sitemap:"`, take
`line.split(": ")[1].strip()`.  A matching line with no `": "` separator
raises `IndexError` in Python (`none` result). -/
def collectLoop : List (List Char) → Option (List String)
  | [] => some []
  | line :: rest =>
    if isPre "Sitemap:".toList line then
      match (splitColonSpace line).get? 1 with
      | none => none
      | some seg => (collectLoop rest).map (fun ls => String.mk (pyStripWs seg) :: ls)
    else collectLoop rest

/-- The sitemap URLs extracted by `collect_sitemaps` from the
`robots.txt` text, in file order (`none` = `IndexError` escapes). -/
def extractSitemapLinks (robots : String) : Option (List String) :=
  collectLoop (pySplit '\n' robots.toList)

/-- `collect_sitemaps`: extract the sitemap URLs of `robots.txt` and run
`process_sitemap` on each in file order. -/
def collect_sitemaps (resp : String → Option (List String)) (fuel : Nat)
    (robots : String) (frames : Frames) : Option Frames :=
  (extractSitemapLinks robots).bind (fun links =>
    links.foldl (fun acc l => acc.bind (visitSitemap resp fuel l)) (some frames))

/-- A CSV field as pandas `to_csv` renders it: null becomes the empty
field, a value containing a separator, quote or line break is quoted
with inner quotes doubled. -/
def csvField : Cell → List Char
  | none => []
  | some s =>
    if s.toList.any (fun c => c = ',' ∨ c = '"' ∨ c = '\n' ∨ c = '\r') then
      '"' :: (s.toList.flatMap (fun c => if c = '"' then ['"', '"'] else [c])) ++ ['"']
    else s.toList

/-- Join character lists with a comma, as one CSV line. -/
def commaJoin : List (List Char) → List Char
  | [] => []
  | [w] => w
  | w :: ws => w ++ ',' :: commaJoin ws

/-- The lines of `frame.to_csv(..., index=False)`: the header row of
column names followed by one line per row, cells in column order, no
row-index column. -/
def renderLines (f : Frame) : List (List Char) :=
  commaJoin (f.cols.map String.toList) ::
    f.rows.map (fun r => commaJoin (f.cols.map (fun c => csvField (rowGet r c))))

/-- The full CSV text: every line terminated by a newline. -/
def renderCsv (f : Frame) : String :=
  String.mk ((renderLines f).foldr (fun l acc => l ++ '\n' :: acc) [])

/-- `os.path.join(folder, name)` for a plain relative folder name. -/
def pathJoin (a b : String) : String := a ++ "/" ++ b

/-- The file system as the exporter sees it: existing directories and
files (path to content); writing an existing path overwrites it. -/
structure FS where
  dirs : List String
  files : List (String × String)
deriving DecidableEq

/-- Write one file, overwriting any previous content at that path. -/
def writeFile (fs : List (String × String)) (path content : String) :
    List (String × String) :=
  if fs.any (fun p => p.1 = path) then
    fs.map (fun p => if p.1 = path then (path, content) else p)
  else fs ++ [(path, content)]

/-- `export_to_csv`: create the folder if absent, then write
`{identifier}.csv` for every entry of `sitemaps_frames`. -/
def export_to_csv (frames : Frames) (folder : String) (fs : FS) : FS :=
  let fs1 : FS :=
    if folder ∈ fs.dirs then fs else { fs with dirs := fs.dirs ++ [folder] }
  { fs1 with
    files := frames.foldl
      (fun acc p => writeFile acc (pathJoin folder (p.1 ++ ".csv")) (renderCsv p.2))
      fs1.files }

/-- A concrete two-document environment: sitemap `a.xml` lists `b.xml`,
which is an empty sitemap.  Used to exhibit traversal orderings. -/
def respAB (u : String) : Option (List String) :=
  if u = "https://e.com/a.xml" then some ["https://e.com/b.xml"]
  else if u = "https://e.com/b.xml" then some []
  else none

/-- A concrete cyclic environment: sitemap `a.xml` lists `b.xml` and
`b.xml` lists `a.xml`. -/
def respCyc (u : String) : Option (List String) :=
  if u = "https://e.com/a.xml" then some ["https://e.com/b.xml"]
  else if u = "https://e.com/b.xml" then some ["https://e.com/a.xml"]
  else none

/-- Concrete input frame used to exhibit the frame effect of
`process_links` on a frame that already has extra columns. -/
def frameC9in : Frame :=
  ⟨["Links", "extra"],
   [[("Links", some "https://www.datacamp.com/d"), ("extra", some "e")]]⟩

/-- The frame `process_links` produces from `frameC9in`. -/
def frameC9out : Frame :=
  ⟨["Links", "extra", "subdir1"],
   [[("subdir1", some "d"), ("Links", some "https://www.datacamp.com/d"),
     ("extra", some "e")]]⟩

/-- A rank function for `respAB` decreasing along its `.xml` edges,
witnessing that its reference graph is finite and acyclic. -/
def rankAB (u : String) : Nat := if u = "https://e.com/a.xml" then 1 else 0

/-- The event trace of walking `respAB` from `a.xml` (fuel 2 suffices). -/
def traceABlist : List Ev :=
  [Ev.visitStart "https://e.com/a.xml",
   Ev.record "https://e.com/a.xml" "https://e.com/b.xml",
   Ev.visitStart "https://e.com/b.xml",
   Ev.store "b.xml", Ev.store "a.xml"]

/-- Two sitemap documents on distinct paths whose URLs share the final
segment `sitemap.xml`, each listing one distinct content URL. -/
def respColl (u : String) : Option (List String) :=
  if u = "https://e.com/a/sitemap.xml" then some ["https://www.datacamp.com/p"]
  else if u = "https://e.com/b/sitemap.xml" then some ["https://www.datacamp.com/q"]
  else none

/-- The decomposed table of the single URL `https://www.datacamp.com/a`,
used to exhibit the export format. -/
def tableC8 : Frame :=
  ⟨["Links", "subdir1"],
   [[("subdir1", some "a"), ("Links", some "https://www.datacamp.com/a")]]⟩

/-! ### Basic facts about the Python string primitives -/

/-- `str.split` never returns the empty list. -/
theorem pySplit_ne_nil (sep : Char) : ∀ s, pySplit sep s ≠ [] := by
  intro s
  induction s with
  | nil => simp [pySplit]
  | cons c cs ih =>
    by_cases h : c = sep
    · simp [pySplit, h]
    · simp only [pySplit, h, if_false]
      cases hh : pySplit sep cs <;> simp

theorem ofDigitsRev_natDigitsRev : ∀ fuel n, n < fuel →
    ofDigitsRev (natDigitsRev fuel n) = n := by
  intro fuel
  induction fuel with
  | zero => intro n h; omega
  | succ f ih =>
    intro n h
    by_cases h10 : n < 10
    · simp [natDigitsRev, h10, ofDigitsRev]
    · have hdiv : n / 10 < n := Nat.div_lt_self (by omega) (by omega)
      simp only [natDigitsRev, h10, if_false, ofDigitsRev,
        ih (n / 10) (by omega)]
      omega

theorem natDigitsRev_lt : ∀ fuel n d, d ∈ natDigitsRev fuel n → d < 10 := by
  intro fuel
  induction fuel with
  | zero => intro n d h; simp [natDigitsRev] at h
  | succ f ih =>
    intro n d h
    by_cases h10 : n < 10
    · simp [natDigitsRev, h10] at h; omega
    · simp only [natDigitsRev, h10, if_false, List.mem_cons] at h
      rcases h with h | h
      · omega
      · exact ih _ _ h

theorem digitChar_inj : ∀ d < 10, ∀ e < 10, digitChar d = digitChar e → d = e := by
  decide

theorem map_digitChar_inj : ∀ xs ys : List Nat, (∀ d ∈ xs, d < 10) →
    (∀ d ∈ ys, d < 10) → xs.map digitChar = ys.map digitChar → xs = ys := by
  intro xs
  induction xs with
  | nil => intro ys _ _ h; cases ys with
    | nil => rfl
    | cons b bs => simp at h
  | cons a as ih =>
    intro ys hx hy h
    cases ys with
    | nil => simp at h
    | cons b bs =>
      simp only [List.map_cons, List.cons.injEq] at h
      have hab := digitChar_inj a (hx a (by simp)) b (hy b (by simp)) h.1
      have := ih bs (fun d hd => hx d (by simp [hd])) (fun d hd => hy d (by simp [hd])) h.2
      simp [hab, this]

theorem natRepr_inj {m n : Nat} (h : natRepr m = natRepr n) : m = n := by
  unfold natRepr at h
  have h2 := map_digitChar_inj _ _
    (fun d hd => natDigitsRev_lt _ _ _ (List.mem_reverse.mp hd))
    (fun d hd => natDigitsRev_lt _ _ _ (List.mem_reverse.mp hd)) h
  have h3 : natDigitsRev (m + 1) m = natDigitsRev (n + 1) n := by
    have := congrArg List.reverse h2
    simpa using this
  have hm := ofDigitsRev_natDigitsRev (m + 1) m (by omega)
  have hn := ofDigitsRev_natDigitsRev (n + 1) n (by omega)
  rw [← hm, ← hn, h3]

theorem natRepr_ne_nil (n : Nat) : natRepr n ≠ [] := by
  unfold natRepr natDigitsRev
  by_cases h : n < 10 <;> simp [h]

theorem subdirName_inj {a b : Nat} (h : subdirName a = subdirName b) : a = b := by
  unfold subdirName at h
  have h2 : "subdir".toList ++ natRepr a = "subdir".toList ++ natRepr b :=
    congrArg String.data h
  exact natRepr_inj (List.append_cancel_left h2)

theorem subdirName_ne_links (j : Nat) : subdirName j ≠ "Links" := by
  intro h
  have h2 : ("subdir".toList ++ natRepr j).length = "Links".toList.length :=
    congrArg (fun s => s.data.length) h
  have h6 : ("subdir".toList).length = 6 := by decide
  have h5 : ("Links".toList).length = 5 := by decide
  have h1 : 1 ≤ (natRepr j).length := by
    rcases hh : natRepr j with _ | ⟨c, cs⟩
    · exact absurd hh (natRepr_ne_nil j)
    · simp
  rw [List.length_append, h6, h5] at h2
  omega

/-! ### Row and assignment lemmas -/

theorem rowGet_eq_rowFind (r : Row) (c : String) :
    rowGet r c = (rowFind r c).getD none := by
  induction r with
  | nil => rfl
  | cons p rest ih =>
    obtain ⟨a, v⟩ := p
    by_cases h : a = c <;> simp [rowGet, rowFind, h, ih]

theorem assignRow_cons (r : Row) (p : String × Cell) (rest : List (String × Cell)) :
    assignRow r (p :: rest) = assignRow ((p.1, p.2) :: r) rest := rfl

/-- A key not written by the assignment keeps its previous binding. -/
theorem rowFind_assignRow_notMem : ∀ (cvs : List (String × Cell)) (r : Row)
    (c : String), (∀ p ∈ cvs, p.1 ≠ c) →
    rowFind (assignRow r cvs) c = rowFind r c := by
  intro cvs
  induction cvs with
  | nil => intro r c _; rfl
  | cons p rest ih =>
    intro r c hc
    rw [assignRow_cons, ih _ _ (fun q hq => hc q (by simp [hq]))]
    simp [rowFind, hc p (by simp)]

/-- Reading an assigned index-keyed binding: the written value when the
index is in range, the previous binding otherwise. -/
theorem rowFind_assign_gen : ∀ (segs : List Cell) (f : Nat → String),
    (∀ a b, f a = f b → a = b) → ∀ (r : Row) (j : Nat),
      rowFind (assignRow r (((List.range segs.length).map f).zip segs)) (f j) =
        if j < segs.length then some (segs.getD j none) else rowFind r (f j) := by
  intro segs
  induction segs with
  | nil => intro f _ r j; simp [assignRow, List.foldl]
  | cons s rest ih =>
    intro f hfinj r j
    have hrange : (List.range (rest.length + 1)).map f =
        f 0 :: (List.range rest.length).map (fun i => f (i + 1)) := by
      rw [List.range_succ_eq_map]
      simp [List.map_map, Function.comp]
    have hinj1 : ∀ a b, f (a + 1) = f (b + 1) → a = b := by
      intro a b hab
      have := hfinj _ _ hab
      omega
    simp only [List.length_cons, hrange, List.zip_cons_cons, assignRow_cons]
    cases j with
    | zero =>
      have hnot : ∀ p ∈ ((List.range rest.length).map (fun i => f (i + 1))).zip rest,
          p.1 ≠ f 0 := by
        intro p hp heq
        obtain ⟨h1, _⟩ := List.of_mem_zip hp
        obtain ⟨i, _, hfi⟩ := List.mem_map.mp h1
        have : i + 1 = 0 := hfinj _ _ (hfi.trans heq)
        omega
      rw [rowFind_assignRow_notMem _ _ _ hnot]
      simp [rowFind]
    | succ j' =>
      have hih := ih (fun i => f (i + 1)) hinj1 ((f 0, s) :: r) j'
      simp only at hih
      rw [hih]
      have hne : f 0 ≠ f (j' + 1) := by
        intro h
        have := hfinj _ _ h
        omega
      by_cases hj : j' < rest.length
      · simp [hj]
      · simp [hj, rowFind, hne]

theorem subdirName_succ_inj : ∀ a b : Nat, subdirName (a + 1) = subdirName (b + 1) → a = b := by
  intro a b hab
  have := subdirName_inj hab
  omega

theorem links_ne_subdirName (j : Nat) : "Links" ≠ subdirName j :=
  Ne.symm (subdirName_ne_links j)

/-- The row assignment of one iteration of the `process_links` loop:
`subdir(j+1)` reads back the `j`-th segment, null beyond the segment list. -/
theorem rowGet_assign_subdir (r : Row) (segs : List Cell) (j : Nat)
    (hr : rowFind r (subdirName (j + 1)) = none) :
    rowGet (assignRow r
      (((List.range segs.length).map (fun i => subdirName (i + 1))).zip segs))
      (subdirName (j + 1)) = segs.getD j none := by
  rw [rowGet_eq_rowFind]
  have h := rowFind_assign_gen segs (fun i => subdirName (i + 1))
    subdirName_succ_inj r j
  simp only at h
  rw [h]
  by_cases hj : j < segs.length
  · simp [hj]
  · rw [if_neg hj, hr]
    rw [List.getD_eq_default _ _ (by omega)]
    rfl

/-- The row assignment never touches the `Links` cell. -/
theorem rowGet_assign_links (r : Row) (segs : List Cell) :
    rowGet (assignRow r
      (((List.range segs.length).map (fun i => subdirName (i + 1))).zip segs))
      "Links" = rowGet r "Links" := by
  rw [rowGet_eq_rowFind, rowFind_assignRow_notMem, ← rowGet_eq_rowFind]
  intro p hp heq
  obtain ⟨h1, _⟩ := List.of_mem_zip hp
  obtain ⟨i, _, hfi⟩ := List.mem_map.mp h1
  exact subdirName_ne_links (i + 1) (hfi.trans heq)

/-- More generally, the row assignment touches only `subdir` cells. -/
theorem rowGet_assign_other (r : Row) (segs : List Cell) (c : String)
    (hc : ∀ i, c ≠ subdirName (i + 1)) :
    rowGet (assignRow r
      (((List.range segs.length).map (fun i => subdirName (i + 1))).zip segs))
      c = rowGet r c := by
  rw [rowGet_eq_rowFind, rowFind_assignRow_notMem, ← rowGet_eq_rowFind]
  intro p hp heq
  obtain ⟨h1, _⟩ := List.of_mem_zip hp
  obtain ⟨i, _, hfi⟩ := List.mem_map.mp h1
  exact hc i (heq.symm.trans hfi.symm)

/-- The column update of `locAssign` depends only on the assigned keys. -/
theorem colsFold_keys (cvs : List (String × Cell)) (acc : List String) :
    cvs.foldl (fun a p => if p.1 ∈ a then a else a ++ [p.1]) acc =
      (cvs.map Prod.fst).foldl (fun a c => if c ∈ a then a else a ++ [c]) acc := by
  induction cvs generalizing acc with
  | nil => rfl
  | cons p rest ih => simp only [List.foldl_cons, List.map_cons, ih]

/-- Folding the ascending column names `f 0 .. f (n-1)` into a column
list `Links, f 0 .. f (d-1)` yields `Links, f 0 .. f (max d n - 1)`:
new columns are appended in ascending order. -/
theorem colsFold_range (f : Nat → String) (hfinj : ∀ a b, f a = f b → a = b)
    (hne : ∀ i, f i ≠ "Links") :
    ∀ n d, ((List.range n).map f).foldl (fun a c => if c ∈ a then a else a ++ [c])
        ("Links" :: (List.range d).map f) =
      "Links" :: (List.range (max d n)).map f := by
  intro n
  induction n with
  | zero => intro d; simp
  | succ m ih =>
    intro d
    rw [List.range_succ, List.map_append, List.foldl_append, ih d]
    simp only [List.map_cons, List.map_nil, List.foldl_cons, List.foldl_nil]
    have hmem : (f m ∈ "Links" :: (List.range (max d m)).map f) ↔ m < max d m := by
      constructor
      · intro h
        rcases List.mem_cons.mp h with h | h
        · exact absurd h (hne m)
        · obtain ⟨i, hi, hfi⟩ := List.mem_map.mp h
          have := hfinj _ _ hfi
          simp only [List.mem_range] at hi
          omega
      · intro h
        exact List.mem_cons.mpr (Or.inr (List.mem_map.mpr ⟨m, List.mem_range.mpr (by omega), rfl⟩))
    by_cases hm : m < max d m
    · rw [if_pos (hmem.mpr hm)]
      have : max d m = d := by omega
      have h2 : max d (m + 1) = d := by omega
      rw [this, h2]
    · rw [if_neg (fun hc => hm (hmem.mp hc))]
      have h1 : max d m = m := by omega
      have h2 : max d (m + 1) = m + 1 := by omega
      rw [h1, h2, List.range_succ, List.map_append]
      simp

theorem getD_set_ne {α : Type} (l : List α) (i j : Nat) (a d : α) (h : i ≠ j) :
    (l.set i a).getD j d = l.getD j d := by
  simp [List.getD, List.getElem?_set_ne h]

theorem getD_set_self {α : Type} (l : List α) (i : Nat) (a d : α) (h : i < l.length) :
    (l.set i a).getD i d = a := by
  simp [List.getD, List.getElem?_set_self, h]

theorem getD_map_row (links : List String) (i : Nat) (h : i < links.length) :
    (links.map (fun l => [("Links", (some l : Cell))])).getD i [] =
      [("Links", some (links.getD i ""))] := by
  simp [List.getD, List.getElem?_map, List.getElem?_eq_getElem h]

theorem maxDepth_append_one (xs : List String) (x : String) :
    maxDepth (xs ++ [x]) = max (maxDepth xs) (split_url x).length := by
  unfold maxDepth
  rw [List.foldl_append]
  rfl

theorem take_succ_getD (links : List String) (k : Nat) (h : k < links.length) :
    links.take (k + 1) = links.take k ++ [links.getD k ""] := by
  rw [List.take_succ]
  simp [List.getD, List.getElem?_eq_getElem h]

/-- Main loop invariant of `process_links` run on a plain `Links` frame:
after the loop, the columns are `Links, subdir1 .. subdirM` in ascending
order with `M` the maximum segment count, the row count is unchanged,
every row keeps its URL and row `i`'s `subdir(j+1)` cell holds the
`j`-th segment of its URL (null beyond its own segment list). -/
theorem processRowsLoop_mkFrame (links : List String) :
    ∀ (rem : List String) (k : Nat) (df : Frame) (d : Nat),
      k + rem.length = links.length →
      rem = links.drop k →
      d = maxDepth (links.take k) →
      df.cols = "Links" :: (List.range d).map (fun j => subdirName (j + 1)) →
      df.rows.length = links.length →
      (∀ i, k ≤ i → i < links.length →
        df.rows.getD i [] = [("Links", some (links.getD i ""))]) →
      (∀ i, i < k → rowGet (df.rows.getD i []) "Links" = some (links.getD i "")) →
      (∀ i j, i < k → rowGet (df.rows.getD i []) (subdirName (j + 1)) =
        (split_url (links.getD i "")).getD j none) →
      ∃ df', processRowsLoop k (rem.map (fun l => [("Links", some l)])) df d =
          some (df', maxDepth links) ∧
        df'.cols = "Links" ::
          (List.range (maxDepth links)).map (fun j => subdirName (j + 1)) ∧
        df'.rows.length = links.length ∧
        (∀ i, i < links.length →
          rowGet (df'.rows.getD i []) "Links" = some (links.getD i "")) ∧
        (∀ i j, i < links.length → rowGet (df'.rows.getD i []) (subdirName (j + 1)) =
          (split_url (links.getD i "")).getD j none) := by
  intro rem
  induction rem with
  | nil =>
    intro k df d hk hdrop hd hcols hlen hunproc hlinks hsub
    have hkeq : k = links.length := by simpa using hk
    have htake : links.take k = links := by
      rw [hkeq]; simp
    refine ⟨df, ?_, ?_, hlen, ?_, ?_⟩
    · simp only [List.map_nil, processRowsLoop]
      rw [hd, htake]
    · rw [hcols, hd, htake]
    · intro i hi; exact hlinks i (by omega)
    · intro i j hi; exact hsub i j (by omega)
  | cons l rest ih =>
    intro k df d hk hdrop hd hcols hlen hunproc hlinks hsub
    have hklt : k < links.length := by simp at hk; omega
    have hdk : links.drop k = links[k] :: links.drop (k + 1) :=
      List.drop_eq_getElem_cons hklt
    have hgetd : links.getD k "" = links[k] := by
      simp [List.getD, List.getElem?_eq_getElem hklt]
    have hcons : l :: rest = links[k] :: links.drop (k + 1) := hdrop.trans hdk
    have hl : l = links.getD k "" := by
      rw [hgetd]; exact (List.cons_eq_cons.mp hcons).1
    have hrest : rest = links.drop (k + 1) := (List.cons_eq_cons.mp hcons).2
    -- one loop iteration
    simp only [List.map_cons, processRowsLoop]
    have hrg : rowGet [("Links", (some l : Cell))] "Links" = some l := by
      simp [rowGet]
    rw [hrg]
    set segs := split_url l with hsegs
    set names := (List.range segs.length).map (fun j => subdirName (j + 1)) with hnames
    set df1 := locAssign df k (names.zip segs) with hdf1
    -- facts about the updated frame
    have hrowk : df.rows.getD k [] = [("Links", some (links.getD k ""))] :=
      hunproc k (by omega) hklt
    have hcols1 : df1.cols = "Links" ::
        (List.range (max d segs.length)).map (fun j => subdirName (j + 1)) := by
      rw [hdf1]
      show (names.zip segs).foldl _ df.cols = _
      rw [colsFold_keys, List.map_fst_zip _ _ (by simp [hnames]), hnames, hcols]
      exact colsFold_range _ subdirName_succ_inj
        (fun i => subdirName_ne_links (i + 1)) _ _
    have hlen1 : df1.rows.length = links.length := by
      rw [hdf1]
      show (df.rows.set k _).length = _
      rw [List.length_set, hlen]
    have hrow1k : df1.rows.getD k [] =
        assignRow [("Links", some (links.getD k ""))] (names.zip segs) := by
      rw [hdf1]
      show (df.rows.set k (assignRow (df.rows.getD k []) (names.zip segs))).getD k [] = _
      rw [getD_set_self _ _ _ _ (by rw [hlen]; omega), hrowk]
    have hrow1ne : ∀ i, i ≠ k → df1.rows.getD i [] = df.rows.getD i [] := by
      intro i hi
      rw [hdf1]
      show (df.rows.set k _).getD i [] = _
      rw [getD_set_ne _ _ _ _ _ (Ne.symm hi)]
    -- apply the induction hypothesis
    have := ih (k + 1) df1 (max d segs.length)
      (by simp at hk ⊢; omega)
      hrest
      (by rw [take_succ_getD links k hklt, maxDepth_append_one, ← hd, ← hl, hsegs])
      hcols1
      hlen1
      (by
        intro i hi hilen
        rw [hrow1ne i (by omega)]
        exact hunproc i (by omega) hilen)
      (by
        intro i hi
        rcases Nat.lt_or_ge i k with hik | hik
        · rw [hrow1ne i (by omega)]
          exact hlinks i hik
        · have hieq : i = k := by omega
          rw [hieq, hrow1k, hnames, rowGet_assign_links]
          simp [rowGet])
      (by
        intro i j hi
        rcases Nat.lt_or_ge i k with hik | hik
        · rw [hrow1ne i (by omega)]
          exact hsub i j hik
        · have hieq : i = k := by omega
          rw [hieq, hrow1k, hnames, rowGet_assign_subdir, ← hl, hsegs]
          simp [rowFind, links_ne_subdirName (j + 1)])
    exact this

/-- The second loop of `process_links` adds nothing when every
`subdir1..subdirM` column already exists. -/
theorem fillLoop_noop (df : Frame) (m : Nat)
    (h : ∀ j, j < m → subdirName (j + 1) ∈ df.cols) :
    (List.range m).foldl (fun df2 depth =>
      if subdirName (depth + 1) ∈ df2.cols then df2
      else { df2 with cols := df2.cols ++ [subdirName (depth + 1)] }) df = df := by
  induction m with
  | zero => rfl
  | succ p ih =>
    rw [List.range_succ, List.foldl_append, ih (fun j hj => h j (by omega))]
    simp [h p (by omega)]

/-- Full characterisation of `process_links` on the frame
`pd.DataFrame(links, columns=["Links"])` built by `process_sitemap`. -/
theorem process_links_mkFrame (links : List String) :
    ∃ t, process_links (mkFrame links) = some t ∧
      t.cols = "Links" ::
        (List.range (maxDepth links)).map (fun j => subdirName (j + 1)) ∧
      t.rows.length = links.length ∧
      (∀ i, i < links.length →
        rowGet (t.rows.getD i []) "Links" = some (links.getD i "")) ∧
      (∀ i j, i < links.length → rowGet (t.rows.getD i []) (subdirName (j + 1)) =
        (split_url (links.getD i "")).getD j none) := by
  obtain ⟨df', hrun, hcols, hlen, hlinks, hsub⟩ :=
    processRowsLoop_mkFrame links links 0 (mkFrame links) 0
      (by simp)
      (by simp)
      (by simp [maxDepth])
      (by simp [mkFrame])
      (by simp [mkFrame])
      (fun i _ hi => getD_map_row links i hi)
      (fun i hi => by omega)
      (fun i j hi => by omega)
  refine ⟨df', ?_, hcols, hlen, hlinks, hsub⟩
  unfold process_links
  have hrows : (mkFrame links).rows = links.map (fun l => [("Links", some l)]) := rfl
  rw [hrows, hrun]
  simp only [Option.map_some']
  rw [fillLoop_noop df' (maxDepth links) (by
    intro j hj
    rw [hcols]
    exact List.mem_cons.mpr (Or.inr (List.mem_map.mpr
      ⟨j, List.mem_range.mpr hj, rfl⟩)))]

/-! ### Maximum-depth facts -/

theorem foldlMax_init : ∀ (xs : List String) (a : Nat),
    a ≤ xs.foldl (fun m l => max m (split_url l).length) a := by
  intro xs
  induction xs with
  | nil => intro a; simp
  | cons x xs ih =>
    intro a
    exact le_trans (le_max_left _ _) (ih (max a (split_url x).length))

theorem foldlMax_mem : ∀ (xs : List String) (a : Nat) (l : String), l ∈ xs →
    (split_url l).length ≤ xs.foldl (fun m l => max m (split_url l).length) a := by
  intro xs
  induction xs with
  | nil => intro a l h; simp at h
  | cons x xs ih =>
    intro a l h
    rcases List.mem_cons.mp h with h | h
    · subst h
      exact le_trans (le_max_right _ _) (foldlMax_init _ _)
    · exact ih _ _ h

theorem foldlMax_attained : ∀ (xs : List String) (a : Nat),
    xs.foldl (fun m l => max m (split_url l).length) a = a ∨
    ∃ l ∈ xs, xs.foldl (fun m l => max m (split_url l).length) a =
      (split_url l).length := by
  intro xs
  induction xs with
  | nil => intro a; left; rfl
  | cons x xs ih =>
    intro a
    rcases ih (max a (split_url x).length) with h | ⟨l, hl, he⟩
    · by_cases hc : (split_url x).length ≤ a
      · left
        rw [List.foldl_cons, h]
        omega
      · right
        refine ⟨x, by simp, ?_⟩
        rw [List.foldl_cons, h]
        omega
    · right
      exact ⟨l, by simp [hl], by rw [List.foldl_cons]; exact he⟩

theorem maxDepth_ge (links : List String) (i : Nat) (h : i < links.length) :
    (split_url (links.getD i "")).length ≤ maxDepth links := by
  apply foldlMax_mem
  have : links.getD i "" = links[i] := by
    simp [List.getD, List.getElem?_eq_getElem h]
  rw [this]
  exact List.getElem_mem h

theorem maxDepth_attained (links : List String) :
    maxDepth links = 0 ∨
    ∃ i, i < links.length ∧ (split_url (links.getD i "")).length = maxDepth links := by
  rcases foldlMax_attained links 0 with h | ⟨l, hl, he⟩
  · left; exact h
  · right
    obtain ⟨i, hi, hgi⟩ := List.mem_iff_getElem.mp hl
    refine ⟨i, hi, ?_⟩
    have : links.getD i "" = links[i] := by
      simp [List.getD, List.getElem?_eq_getElem hi]
    rw [this, hgi, ← he]
    rfl

/-! ### Claim C1 -/

/-- C1: for every URL `u` and the configured prefix: if `u` starts with
the prefix, `split_url u` is `u` with the prefix stripped, then
leading/trailing `/` stripped, then split on `/` (each piece a string
cell); when `u` equals the prefix exactly the result is the one-element
list containing the empty string; when `u` does not start with the
prefix the result is exactly `[none]`. -/
theorem C1_split_url_segments (u : String) :
    (startsWithP u url_prefix = true →
      split_url u = (pySplit '/' (pyStrip '/'
        (u.toList.drop (String.toList url_prefix).length))).map
        (fun w => some (String.mk w))) ∧
    (u = url_prefix → split_url u = [some ""]) ∧
    (startsWithP u url_prefix = false → split_url u = [none]) := by
  refine ⟨?_, ?_, ?_⟩
  · intro h
    unfold split_url
    rw [if_pos h]
    rfl
  · intro h
    subst h
    decide
  · intro h
    unfold split_url
    rw [if_neg (by simp [h])]

theorem C1_split_url_segments_witness :
    split_url "https://www.datacamp.com/blog/2024/post" =
      [some "blog", some "2024", some "post"] ∧
    split_url "https://www.datacamp.com/" = [some ""] ∧
    split_url "https://other.example/x" = [none] := by
  refine ⟨?_, ?_, ?_⟩
  · rw [(C1_split_url_segments "https://www.datacamp.com/blog/2024/post").1 (by decide)]
    decide
  · exact (C1_split_url_segments "https://www.datacamp.com/").2.1 rfl
  · exact (C1_split_url_segments "https://other.example/x").2.2 (by decide)

/-! ### Claim C2 -/

/-- C2: the table produced by `process_links` on a list of URLs is
rectangular: with `M = maxDepth links` (which bounds every row's
segment-list length and is attained by some row when nonzero), the
columns are exactly `Links, subdir1, ..., subdirM` in ascending depth
order, the row count is the URL count, row `i`'s own segments fill
`subdir1..subdirk` left-aligned, and every subdir cell beyond row `i`'s
own segment-list length is null (`(split_url u).getD j none` is the
`j`-th segment for `j < k` and null for `j ≥ k`). -/
theorem C2_decompose_rectangular (links : List String) (t : Frame)
    (h : process_links (mkFrame links) = some t) :
    t.cols = "Links" ::
      (List.range (maxDepth links)).map (fun j => subdirName (j + 1)) ∧
    t.rows.length = links.length ∧
    (∀ i j, i < links.length →
      rowGet (t.rows.getD i []) (subdirName (j + 1)) =
        (split_url (links.getD i "")).getD j none) ∧
    (∀ i, i < links.length →
      (split_url (links.getD i "")).length ≤ maxDepth links) ∧
    (maxDepth links = 0 ∨ ∃ i, i < links.length ∧
      (split_url (links.getD i "")).length = maxDepth links) := by
  obtain ⟨t', h', hcols, hlen, _, hsub⟩ := process_links_mkFrame links
  rw [h'] at h
  obtain rfl : t' = t := by
    cases h
    rfl
  exact ⟨hcols, hlen, fun i j hi => hsub i j hi,
    fun i hi => maxDepth_ge links i hi, maxDepth_attained links⟩

theorem C2_decompose_rectangular_witness :
    process_links (mkFrame ["https://www.datacamp.com/a/b",
        "https://www.datacamp.com/c", "ftp://z"]) = some
      { cols := ["Links", "subdir1", "subdir2"]
        rows := [[("subdir2", some "b"), ("subdir1", some "a"),
            ("Links", some "https://www.datacamp.com/a/b")],
          [("subdir1", some "c"), ("Links", some "https://www.datacamp.com/c")],
          [("subdir1", none), ("Links", some "ftp://z")]] } ∧
    rowGet ([[("subdir2", (some "b" : Cell)), ("subdir1", some "a"),
            ("Links", some "https://www.datacamp.com/a/b")],
          [("subdir1", some "c"), ("Links", some "https://www.datacamp.com/c")],
          [("subdir1", none), ("Links", some "ftp://z")]].getD 1 [])
        (subdirName 2) = none := by
  have h : process_links (mkFrame ["https://www.datacamp.com/a/b",
      "https://www.datacamp.com/c", "ftp://z"]) = some
      { cols := ["Links", "subdir1", "subdir2"]
        rows := [[("subdir2", some "b"), ("subdir1", some "a"),
            ("Links", some "https://www.datacamp.com/a/b")],
          [("subdir1", some "c"), ("Links", some "https://www.datacamp.com/c")],
          [("subdir1", none), ("Links", some "ftp://z")]] } := by decide
  refine ⟨h, ?_⟩
  have h2 := (C2_decompose_rectangular _ _ h).2.2.1 1 1 (by decide)
  rw [show (2 : Nat) = 1 + 1 from rfl, h2]
  decide

/-! ### Claim C10 -/

/-- C10: `split_url` always returns a list of length at least 1
(non-prefixed URLs give `[none]`, an exact prefix match gives one empty
segment, and the split itself never returns an empty list), and hence
every decomposed table with at least one row has a `subdir1` column. -/
theorem C10_split_url_nonempty :
    (∀ u, 1 ≤ (split_url u).length) ∧
    (∀ links t, process_links (mkFrame links) = some t → links ≠ [] →
      "subdir1" ∈ t.cols) := by
  constructor
  · intro u
    unfold split_url
    by_cases h : startsWithP u url_prefix = true
    · rw [if_pos h]
      rcases hh : pySplit '/' (pyStrip '/'
          (u.toList.drop ("https://www.datacamp.com/".toList.length))) with _ | ⟨w, ws⟩
      · exact absurd hh (pySplit_ne_nil _ _)
      · simp
    · rw [if_neg h]
      simp
  · intro links t ht hne
    obtain ⟨hcols, _, _, _, _⟩ := C2_decompose_rectangular links t ht
    have hlen : 0 < links.length := List.length_pos.mpr hne
    have h1 : 1 ≤ (split_url (links.getD 0 "")).length := by
      unfold split_url
      by_cases h : startsWithP (links.getD 0 "") url_prefix = true
      · rw [if_pos h]
        rcases hh : pySplit '/' (pyStrip '/'
            ((links.getD 0 "").toList.drop
              ("https://www.datacamp.com/".toList.length))) with _ | ⟨w, ws⟩
        · exact absurd hh (pySplit_ne_nil _ _)
        · simp
      · rw [if_neg h]
        simp
    have hM : 1 ≤ maxDepth links := le_trans h1 (maxDepth_ge links 0 hlen)
    rw [hcols]
    have : subdirName 1 = "subdir1" := by decide
    rw [← this]
    exact List.mem_cons.mpr (Or.inr (List.mem_map.mpr
      ⟨0, List.mem_range.mpr (by omega), rfl⟩))

theorem C10_split_url_nonempty_witness :
    1 ≤ (split_url "https://www.datacamp.com/x").length ∧
    "subdir1" ∈ ((process_links (mkFrame ["ftp://q"])).getD (mkFrame [])).cols := by
  constructor
  · exact C10_split_url_nonempty.1 "https://www.datacamp.com/x"
  · have h : process_links (mkFrame ["ftp://q"]) = some
        { cols := ["Links", "subdir1"]
          rows := [[("subdir1", none), ("Links", some "ftp://q")]] } := by decide
    have h2 := C10_split_url_nonempty.2 ["ftp://q"] _ h (by simp)
    rw [h]
    exact h2

/-! ### Preservation facts of `process_links` on arbitrary frames (C9) -/

theorem rowGet_set_assign (l : List Row) (k i : Nat) (cvs : List (String × Cell))
    (c : String) (hc : ∀ p ∈ cvs, p.1 ≠ c) :
    rowGet ((l.set k (assignRow (l.getD k []) cvs)).getD i []) c =
      rowGet (l.getD i []) c := by
  by_cases hik : i = k
  · subst hik
    by_cases hlen : i < l.length
    · rw [getD_set_self _ _ _ _ hlen, rowGet_eq_rowFind,
        rowFind_assignRow_notMem _ _ _ hc, ← rowGet_eq_rowFind]
    · rw [List.set_eq_of_length_le (by omega)]
  · rw [getD_set_ne _ _ _ _ _ (Ne.symm hik)]

theorem colsFold_extends : ∀ (keys : List String) (acc : List String),
    ∃ extra, keys.foldl (fun a c => if c ∈ a then a else a ++ [c]) acc =
      acc ++ extra ∧ ∀ c ∈ extra, c ∈ keys := by
  intro keys
  induction keys with
  | nil => intro acc; exact ⟨[], by simp, by simp⟩
  | cons c rest ih =>
    intro acc
    rw [List.foldl_cons]
    by_cases hc : c ∈ acc
    · rw [if_pos hc]
      obtain ⟨extra, he, hm⟩ := ih acc
      exact ⟨extra, he, fun x hx => List.mem_cons.mpr (Or.inr (hm x hx))⟩
    · rw [if_neg hc]
      obtain ⟨extra, he, hm⟩ := ih (acc ++ [c])
      refine ⟨c :: extra, by rw [he]; simp, ?_⟩
      intro x hx
      rcases List.mem_cons.mp hx with hx | hx
      · exact List.mem_cons.mpr (Or.inl hx)
      · exact List.mem_cons.mpr (Or.inr (hm x hx))

/-- The row loop only appends `subdir` columns, keeps the row count and
leaves every non-`subdir` cell (in particular the `Links` column) of
every row unchanged. -/
theorem processRowsLoop_preserve : ∀ (rem : List Row) (k : Nat) (df : Frame)
    (d : Nat) (res : Frame × Nat), processRowsLoop k rem df d = some res →
    res.1.rows.length = df.rows.length ∧
    (∀ i c, (∀ j, c ≠ subdirName (j + 1)) →
      rowGet (res.1.rows.getD i []) c = rowGet (df.rows.getD i []) c) ∧
    (∃ new, res.1.cols = df.cols ++ new ∧
      ∀ c ∈ new, ∃ j, c = subdirName (j + 1)) := by
  intro rem
  induction rem with
  | nil =>
    intro k df d res h
    simp only [processRowsLoop] at h
    cases h
    exact ⟨rfl, fun i c _ => rfl, ⟨[], by simp, by simp⟩⟩
  | cons record rest ih =>
    intro k df d res h
    simp only [processRowsLoop] at h
    rcases hrg : rowGet record "Links" with _ | link
    · rw [hrg] at h; cases h
    · rw [hrg] at h
      set segs := split_url link with hsegs
      set names := (List.range segs.length).map (fun j => subdirName (j + 1))
        with hnames
      set df1 := locAssign df k (names.zip segs) with hdf1
      obtain ⟨hlen1, hcell1, new1, hcols1, hnew1⟩ := ih (k + 1) df1 _ res h
      have hkeys : (names.zip segs).map Prod.fst = names :=
        List.map_fst_zip _ _ (by simp [hnames])
      refine ⟨?_, ?_, ?_⟩
      · rw [hlen1, hdf1]
        show (df.rows.set k _).length = _
        rw [List.length_set]
      · intro i c hcsub
        rw [hcell1 i c hcsub, hdf1]
        show rowGet ((df.rows.set k (assignRow (df.rows.getD k []) _)).getD i []) c =
          rowGet (df.rows.getD i []) c
        apply rowGet_set_assign
        intro p hp heq
        obtain ⟨h1, _⟩ := List.of_mem_zip hp
        obtain ⟨jj, _, hfi⟩ := List.mem_map.mp h1
        exact hcsub jj (heq ▸ hfi.symm)
      · obtain ⟨extra, hex, hexm⟩ := colsFold_extends names df.cols
        refine ⟨extra ++ new1, ?_, ?_⟩
        · rw [hcols1, hdf1]
          show (names.zip segs).foldl _ df.cols ++ new1 = _
          rw [colsFold_keys, hkeys, hex, List.append_assoc]
        · intro c hc
          rcases List.mem_append.mp hc with hc | hc
          · obtain ⟨jj, _, hfi⟩ := List.mem_map.mp (hexm c hc)
            exact ⟨jj, hfi.symm⟩
          · exact hnew1 c hc

/-- The fill-in loop of `process_links` keeps the rows and appends only
`subdir` columns. -/
theorem fillLoop_extends (df : Frame) (m : Nat) :
    ∃ extra, (List.range m).foldl (fun df2 depth =>
        if subdirName (depth + 1) ∈ df2.cols then df2
        else { df2 with cols := df2.cols ++ [subdirName (depth + 1)] }) df =
      { cols := df.cols ++ extra, rows := df.rows } ∧
      ∀ c ∈ extra, ∃ j, c = subdirName (j + 1) := by
  induction m with
  | zero => exact ⟨[], by simp, by simp⟩
  | succ p ih =>
    obtain ⟨extra, he, hm⟩ := ih
    rw [List.range_succ, List.foldl_append]
    rw [he]
    simp only [List.foldl_cons, List.foldl_nil]
    by_cases hc : subdirName (p + 1) ∈ df.cols ++ extra
    · rw [if_pos hc]
      exact ⟨extra, rfl, hm⟩
    · rw [if_neg hc]
      refine ⟨extra ++ [subdirName (p + 1)], by simp, ?_⟩
      intro c hcm
      rcases List.mem_append.mp hcm with hcm | hcm
      · exact hm c hcm
      · simp only [List.mem_singleton] at hcm
        exact ⟨p, hcm⟩

/-! ### Claim C9 -/

/-- C9: `process_links` leaves the `Links` column and the number of rows
unchanged: whenever it returns a frame, that frame has the same row
count, every row's `Links` cell equals the input row's `Links` cell, and
the column list is the input column list extended only by `subdir`
columns. -/
theorem C9_process_links_preserves (f g : Frame) (h : process_links f = some g) :
    g.rows.length = f.rows.length ∧
    (∀ i, rowGet (g.rows.getD i []) "Links" = rowGet (f.rows.getD i []) "Links") ∧
    (∃ new, g.cols = f.cols ++ new ∧ ∀ c ∈ new, ∃ j, c = subdirName (j + 1)) := by
  unfold process_links at h
  rcases hrun : processRowsLoop 0 f.rows f 0 with _ | res
  · rw [hrun] at h; cases h
  · rw [hrun] at h
    simp only [Option.map_some'] at h
    obtain ⟨hlen, hcell, new1, hcols, hnew⟩ :=
      processRowsLoop_preserve f.rows 0 f 0 res hrun
    obtain ⟨extra, hfill, hextra⟩ := fillLoop_extends res.1 res.2
    rw [hfill] at h
    cases h
    refine ⟨hlen, ?_, ⟨new1 ++ extra, ?_, ?_⟩⟩
    · intro i
      exact hcell i "Links" (fun j => links_ne_subdirName (j + 1))
    · show res.1.cols ++ extra = f.cols ++ (new1 ++ extra)
      rw [hcols, List.append_assoc]
    · intro c hc
      rcases List.mem_append.mp hc with hc | hc
      · exact hnew c hc
      · exact hextra c hc

theorem C9_process_links_preserves_witness :
    frameC9out.rows.length = frameC9in.rows.length ∧
    rowGet (frameC9out.rows.getD 0 []) "Links" =
      rowGet (frameC9in.rows.getD 0 []) "Links" := by
  have h : process_links frameC9in = some frameC9out := by decide
  obtain ⟨hlen, hcell, _⟩ := C9_process_links_preserves _ _ h
  exact ⟨hlen, hcell 0⟩

/-! ### Claim C4 -/

/-- C4: a sitemap URL whose fetch fails is treated as having zero `<loc>`
entries: `process_sitemap` returns normally (no exception — the result is
`some`, at any positive fuel), still stores a zero-row table under the
sitemap's identifier, and when the failing URL occurs in a sibling list
the traversal continues with the remaining siblings from the updated
collection. -/
theorem C4_fetch_failure_nonfatal (resp : String → Option (List String))
    (n : Nat) (url : String) (frames : Frames) (ls : List String)
    (h : resp url = none) :
    visitSitemap resp (n + 1) url frames =
      some (storeFrame (identifier url) (mkFrame []) frames) ∧
    (mkFrame []).rows.length = 0 ∧
    (endsWithP url ".xml" = true →
      visitChildren (visitSitemap resp (n + 1)) (url :: ls) frames =
        visitChildren (visitSitemap resp (n + 1)) ls
          (storeFrame (identifier url) (mkFrame []) frames)) := by
  have h1 : visitSitemap resp (n + 1) url frames =
      some (storeFrame (identifier url) (mkFrame []) frames) := by
    simp only [visitSitemap, h, Option.getD_none]
    rfl
  refine ⟨h1, rfl, ?_⟩
  intro hxml
  simp only [visitChildren]
  rw [if_pos hxml, h1]
  rfl

theorem C4_fetch_failure_nonfatal_witness :
    visitSitemap respAB 3 "https://e.com/missing.xml" [] =
      some (storeFrame (identifier "https://e.com/missing.xml") (mkFrame []) []) ∧
    visitChildren (visitSitemap respAB 3)
        ["https://e.com/missing.xml", "https://e.com/b.xml"] [] =
      visitChildren (visitSitemap respAB 3) ["https://e.com/b.xml"]
        (storeFrame (identifier "https://e.com/missing.xml") (mkFrame []) []) := by
  have h := C4_fetch_failure_nonfatal respAB 2 "https://e.com/missing.xml" []
    ["https://e.com/b.xml"] (by decide)
  exact ⟨h.1, h.2.2 (by decide)⟩

/-! ### Fuel monotonicity and claim C5 -/

theorem visitChildren_congr (f g : String → Frames → Option Frames)
    (h : ∀ u fs, (f u fs).isSome = true → g u fs = f u fs) :
    ∀ (ls : List String) (fs : Frames),
      (visitChildren f ls fs).isSome = true →
      visitChildren g ls fs = visitChildren f ls fs := by
  intro ls
  induction ls with
  | nil => intro fs _; rfl
  | cons l rest ih =>
    intro fs hsome
    simp only [visitChildren] at hsome ⊢
    by_cases hx : endsWithP l ".xml" = true
    · rw [if_pos hx] at hsome
      rw [if_pos hx, if_pos hx]
      rcases hf : f l fs with _ | fs2
      · rw [hf] at hsome; simp at hsome
      · have hg : g l fs = f l fs := h l fs (by rw [hf]; rfl)
        rw [hf] at hsome
        simp only [Option.some_bind] at hsome
        rw [hg, hf]
        simp only [Option.some_bind]
        exact ih fs2 hsome
    · rw [if_neg hx] at hsome
      rw [if_neg hx, if_neg hx]
      exact ih fs hsome

/-- Fuel is monotone: a traversal that finishes within some depth gives
the same result at any larger depth. -/
theorem visitSitemap_mono (resp : String → Option (List String)) :
    ∀ n m, n ≤ m → ∀ u fs, (visitSitemap resp n u fs).isSome = true →
      visitSitemap resp m u fs = visitSitemap resp n u fs := by
  intro n
  induction n with
  | zero =>
    intro m _ u fs h
    simp [visitSitemap] at h
  | succ k ih =>
    intro m hm u fs h
    rcases m with _ | m'
    · omega
    · have hm' : k ≤ m' := by omega
      simp only [visitSitemap] at h ⊢
      rcases hc : visitChildren (visitSitemap resp k) ((resp u).getD []) fs
        with _ | fs2
      · rw [hc] at h; simp at h
      · have hcg : visitChildren (visitSitemap resp m') ((resp u).getD []) fs =
            visitChildren (visitSitemap resp k) ((resp u).getD []) fs :=
          visitChildren_congr _ _ (fun u2 fs3 hs => ih m' hm' u2 fs3 hs) _ fs
            (by rw [hc]; rfl)
        rw [hcg, hc]

theorem visitCyc_none : ∀ (n : Nat) (fs : Frames),
    visitSitemap respCyc n "https://e.com/a.xml" fs = none ∧
    visitSitemap respCyc n "https://e.com/b.xml" fs = none := by
  intro n
  induction n with
  | zero => intro fs; exact ⟨rfl, rfl⟩
  | succ k ih =>
    intro fs
    constructor
    · simp only [visitSitemap]
      have hr : (respCyc "https://e.com/a.xml").getD [] =
          ["https://e.com/b.xml"] := rfl
      rw [hr]
      simp only [visitChildren]
      rw [if_pos (by decide), (ih fs).2]
      rfl
    · simp only [visitSitemap]
      have hr : (respCyc "https://e.com/b.xml").getD [] =
          ["https://e.com/a.xml"] := rfl
      rw [hr]
      simp only [visitChildren]
      rw [if_pos (by decide), (ih fs).1]
      rfl

/-- Termination on ranked (finite acyclic) graphs of `.xml` references:
fuel `rank u + 1` suffices. -/
theorem visitSitemap_terminates (resp : String → Option (List String))
    (rank : String → Nat)
    (hrank : ∀ v w, w ∈ (resp v).getD [] → endsWithP w ".xml" = true →
      rank w < rank v) :
    ∀ u fs, (visitSitemap resp (rank u + 1) u fs).isSome = true := by
  have main : ∀ r u fs, rank u < r →
      (visitSitemap resp (rank u + 1) u fs).isSome = true := by
    intro r
    induction r with
    | zero => intro u fs h; omega
    | succ r ih =>
      intro u fs h
      simp only [visitSitemap]
      have hch : ∀ (ls : List String), (∀ w ∈ ls, w ∈ (resp u).getD []) →
          ∀ fs2, (visitChildren (visitSitemap resp (rank u)) ls fs2).isSome = true := by
        intro ls
        induction ls with
        | nil => intro _ fs2; rfl
        | cons w rest ihl =>
          intro hsub fs2
          simp only [visitChildren]
          by_cases hx : endsWithP w ".xml" = true
          · rw [if_pos hx]
            have hw : rank w < rank u := hrank u w (hsub w (by simp)) hx
            have hsome : (visitSitemap resp (rank w + 1) w fs2).isSome = true :=
              ih w fs2 (by omega)
            have hmono := visitSitemap_mono resp (rank w + 1) (rank u)
              (by omega) w fs2 hsome
            rw [hmono]
            rcases hv : visitSitemap resp (rank w + 1) w fs2 with _ | fs3
            · rw [hv] at hsome; simp at hsome
            · simp only [Option.some_bind]
              exact ihl (fun x hx2 => hsub x (by simp [hx2])) fs3
          · rw [if_neg hx]
            exact ihl (fun x hx2 => hsub x (by simp [hx2])) fs2
      have hc := hch ((resp u).getD []) (fun w hw => hw) fs
      rcases hcv : visitChildren (visitSitemap resp (rank u)) ((resp u).getD []) fs
        with _ | fs2
      · rw [hcv] at hc; simp at hc
      · obtain ⟨t, hpt, _, _, _⟩ := process_links_mkFrame ((resp u).getD [])
        simp [Option.some_bind, hpt]
  intro u fs
  exact main (rank u + 1) u fs (by omega)

/-! ### Claim C5 -/

/-- C5: the walker has no cycle guard: on the concrete cyclic document
graph `respCyc` (sitemap `a.xml` lists `b.xml` and `b.xml` lists
`a.xml`) the recursion never finishes within any depth; conversely, when
the `.xml`-reference graph is finite and acyclic — witnessed by a rank
function that decreases along every `.xml` edge — `process_sitemap`
terminates: fuel `rank u + 1` suffices to produce a result. -/
theorem C5_no_cycle_guard :
    (∀ (n : Nat) (fs : Frames),
      visitSitemap respCyc n "https://e.com/a.xml" fs = none) ∧
    (∀ (resp : String → Option (List String)) (rank : String → Nat),
      (∀ v w, w ∈ (resp v).getD [] → endsWithP w ".xml" = true →
        rank w < rank v) →
      ∀ u fs, (visitSitemap resp (rank u + 1) u fs).isSome = true) :=
  ⟨fun n fs => (visitCyc_none n fs).1, visitSitemap_terminates⟩

theorem C5_no_cycle_guard_witness :
    visitSitemap respCyc 5 "https://e.com/a.xml" [] = none ∧
    (visitSitemap respAB (rankAB "https://e.com/a.xml" + 1)
      "https://e.com/a.xml" []).isSome = true := by
  refine ⟨C5_no_cycle_guard.1 5 [],
    C5_no_cycle_guard.2 respAB rankAB ?_ "https://e.com/a.xml" []⟩
  intro v w hw hx
  by_cases hv : v = "https://e.com/a.xml"
  · subst hv
    simp [respAB] at hw
    subst hw
    decide
  · by_cases hv2 : v = "https://e.com/b.xml"
    · subst hv2
      simp [respAB] at hw
    · simp [respAB, hv, hv2] at hw

/-! ### Dictionary store lemmas -/

theorem lookup_map_replace {β : Type} (k : String) (v : β) :
    ∀ (fs : List (String × β)), fs.any (fun p => p.1 = k) = true →
    List.lookup k (fs.map (fun p => if p.1 = k then (k, v) else p)) = some v := by
  intro fs
  induction fs with
  | nil => intro h; simp at h
  | cons p rest ih =>
    intro h
    simp only [List.map_cons]
    by_cases hp : p.1 = k
    · rw [if_pos hp]
      simp [List.lookup]
    · rw [if_neg hp]
      simp only [List.any_cons, decide_eq_true_eq, Bool.or_eq_true] at h
      rcases h with h | h
      · exact absurd h hp
      · have hne : (k == p.1) = false := by
          simp only [beq_eq_false_iff_ne, ne_eq]
          exact fun hc => hp hc.symm
        simp only [List.lookup, hne]
        exact ih (by simpa using h)

theorem lookup_append_single {β : Type} (k : String) (v : β) :
    ∀ (fs : List (String × β)), fs.any (fun p => p.1 = k) = false →
    List.lookup k (fs ++ [(k, v)]) = some v := by
  intro fs
  induction fs with
  | nil => intro _; simp [List.lookup]
  | cons p rest ih =>
    intro h
    simp only [List.any_cons, Bool.or_eq_false_iff, decide_eq_false_iff_not] at h
    have hne : (k == p.1) = false := by
      simp only [beq_eq_false_iff_ne, ne_eq]
      exact fun hc => h.1 hc.symm
    simp only [List.cons_append, List.lookup, hne]
    exact ih (by simpa using h.2)

theorem lookup_storeFrame (k : String) (v : Frame) (fs : Frames) :
    List.lookup k (storeFrame k v fs) = some v := by
  unfold storeFrame
  by_cases h : fs.any (fun p => p.1 = k) = true
  · rw [if_pos h]
    exact lookup_map_replace k v fs h
  · rw [if_neg h]
    exact lookup_append_single k v fs (Bool.eq_false_iff.mpr h)

/-! ### Trace lemmas and claim C3 -/

theorem traceVisit_head (resp : String → Option (List String)) (n : Nat)
    (u : String) : ∃ tl, traceVisit resp (n + 1) u = Ev.visitStart u :: tl :=
  ⟨_, rfl⟩

theorem traceChildren_adjacent (visitT : String → List Ev) (parent : String)
    (hhead : ∀ u, ∃ tl, visitT u = Ev.visitStart u :: tl) :
    ∀ (ls : List String) (l : String), l ∈ ls → endsWithP l ".xml" = true →
    ∃ pre post, traceChildren visitT parent ls =
      pre ++ Ev.record parent l :: Ev.visitStart l :: post := by
  intro ls
  induction ls with
  | nil => intro l h; simp at h
  | cons w rest ih =>
    intro l hmem hxml
    rcases List.mem_cons.mp hmem with hw | hw
    · subst hw
      obtain ⟨tl, htl⟩ := hhead l
      refine ⟨[], tl ++ traceChildren visitT parent rest, ?_⟩
      simp only [traceChildren, if_pos hxml, htl, List.nil_append,
        List.cons_append]
    · obtain ⟨pre, post, hpp⟩ := ih l hw hxml
      refine ⟨Ev.record parent w ::
        ((if endsWithP w ".xml" = true then visitT w else []) ++ pre), post, ?_⟩
      simp only [traceChildren, hpp, List.cons_append, List.append_assoc]

/-- C3 (amended): when `process_sitemap` finishes, every `<loc>` entry —
whether or not it is itself a nested sitemap — appears in the current
sitemap's own stored table (one row per entry, in document order), and an
entry ending in `.xml` is recursively visited immediately *after* it is
recorded in the current link list (the record event directly precedes the
child's visit in the trace). -/
theorem C3_record_then_visit (resp : String → Option (List String)) (n : Nat)
    (url l : String) (frames : Frames)
    (hmem : l ∈ (resp url).getD []) (hxml : endsWithP l ".xml" = true) :
    (∀ fs', visitSitemap resp (n + 1) url frames = some fs' →
      ∃ t, List.lookup (identifier url) fs' = some t ∧
        t.rows.length = ((resp url).getD []).length ∧
        ∀ i, i < ((resp url).getD []).length →
          rowGet (t.rows.getD i []) "Links" =
            some (((resp url).getD []).getD i "")) ∧
    (∃ pre post, traceVisit resp (n + 2) url =
      pre ++ Ev.record url l :: Ev.visitStart l :: post) := by
  constructor
  · intro fs' hfs
    simp only [visitSitemap] at hfs
    rcases hcv : visitChildren (visitSitemap resp n) ((resp url).getD []) frames
      with _ | fs2
    · rw [hcv] at hfs; cases hfs
    · rw [hcv] at hfs
      obtain ⟨t, hpt, _, hlen, hlinks, _⟩ :=
        process_links_mkFrame ((resp url).getD [])
      rw [hpt] at hfs
      simp only [Option.some_bind, Option.map_some'] at hfs
      cases hfs
      exact ⟨t, lookup_storeFrame _ _ _, hlen, hlinks⟩
  · obtain ⟨pre, post, hpp⟩ := traceChildren_adjacent (traceVisit resp (n + 1))
      url (fun u => traceVisit_head resp n u) ((resp url).getD []) l hmem hxml
    refine ⟨Ev.visitStart url :: pre, post ++ [Ev.store (identifier url)], ?_⟩
    have hunf : traceVisit resp (n + 2) url = Ev.visitStart url ::
        (traceChildren (traceVisit resp (n + 1)) url ((resp url).getD []) ++
          [Ev.store (identifier url)]) := rfl
    rw [hunf, hpp]
    simp [List.cons_append, List.append_assoc]

theorem C3_record_then_visit_witness :
    (∃ t, List.lookup (identifier "https://e.com/a.xml")
        [("b.xml", (⟨["Links"], []⟩ : Frame)),
         ("a.xml", ⟨["Links", "subdir1"],
           [[("subdir1", none), ("Links", some "https://e.com/b.xml")]]⟩)] =
        some t ∧
      t.rows.length = 1 ∧
      rowGet (t.rows.getD 0 []) "Links" = some "https://e.com/b.xml") ∧
    (∃ pre post, traceVisit respAB 3 "https://e.com/a.xml" =
      pre ++ Ev.record "https://e.com/a.xml" "https://e.com/b.xml" ::
        Ev.visitStart "https://e.com/b.xml" :: post) := by
  have h := C3_record_then_visit respAB 1 "https://e.com/a.xml"
    "https://e.com/b.xml" [] (by decide) (by decide)
  constructor
  · obtain ⟨t, hl, hlen, hlinks⟩ := h.1
      [("b.xml", (⟨["Links"], []⟩ : Frame)),
       ("a.xml", ⟨["Links", "subdir1"],
         [[("subdir1", none), ("Links", some "https://e.com/b.xml")]]⟩)]
      (by decide)
    exact ⟨t, hl, hlen, hlinks 0 (by decide)⟩
  · exact h.2

/-- The claim's stated ordering is false on the code: in the concrete
trace of walking `respAB` from `a.xml`, the child `b.xml` is recorded in
the parent's link list *before* its recursive visit starts, so no index
of a `visitStart` of the child precedes the index of its `record`. -/
theorem C3_counterexample :
    traceVisit respAB 2 "https://e.com/a.xml" = traceABlist ∧
    ¬ ∃ i j : Fin 5, i.val < j.val ∧
      traceABlist.get i = Ev.visitStart "https://e.com/b.xml" ∧
      traceABlist.get j =
        Ev.record "https://e.com/a.xml" "https://e.com/b.xml" := by
  constructor
  · decide
  · decide

/-! ### Claim C6 -/

/-- C6: a sitemap's table is stored keyed by the final `/`-separated
segment of its URL (`identifier`); for two sitemap URLs sharing that
final segment, the later store silently overwrites the earlier, leaving
exactly one table — the later one — under that identifier in the final
collection. -/
theorem C6_identifier_collision (resp : String → Option (List String)) (n : Nat)
    (u1 u2 l1 l2 : String)
    (hid : identifier u1 = identifier u2)
    (h1 : resp u1 = some [l1]) (h2 : resp u2 = some [l2])
    (hx1 : endsWithP l1 ".xml" = false) (hx2 : endsWithP l2 ".xml" = false) :
    ∃ t1 t2, process_links (mkFrame [l1]) = some t1 ∧
      process_links (mkFrame [l2]) = some t2 ∧
      visitSitemap resp (n + 1) u1 [] = some [(identifier u1, t1)] ∧
      visitSitemap resp (n + 1) u2 [(identifier u1, t1)] =
        some [(identifier u2, t2)] ∧
      countKey (identifier u1) [(identifier u2, t2)] = 1 ∧
      rowGet (t2.rows.getD 0 []) "Links" = some l2 := by
  obtain ⟨t1, hp1, _, hlen1, hlk1, _⟩ := process_links_mkFrame [l1]
  obtain ⟨t2, hp2, _, hlen2, hlk2, _⟩ := process_links_mkFrame [l2]
  refine ⟨t1, t2, hp1, hp2, ?_, ?_, ?_, ?_⟩
  · simp only [visitSitemap, h1, Option.getD_some, visitChildren]
    rw [if_neg (by simp [hx1])]
    simp only [Option.some_bind]
    rw [hp1]
    simp only [Option.map_some']
    simp [storeFrame]
  · simp only [visitSitemap, h2, Option.getD_some, visitChildren]
    rw [if_neg (by simp [hx2])]
    simp only [Option.some_bind]
    rw [hp2]
    simp only [Option.map_some']
    rw [← hid]
    simp [storeFrame]
  · rw [hid]
    simp [countKey]
  · have := hlk2 0 (by simp)
    simpa using this

theorem C6_identifier_collision_witness :
    ∃ t1 t2, process_links (mkFrame ["https://www.datacamp.com/p"]) = some t1 ∧
      process_links (mkFrame ["https://www.datacamp.com/q"]) = some t2 ∧
      visitSitemap respColl 1 "https://e.com/a/sitemap.xml" [] =
        some [(identifier "https://e.com/a/sitemap.xml", t1)] ∧
      visitSitemap respColl 1 "https://e.com/b/sitemap.xml"
          [(identifier "https://e.com/a/sitemap.xml", t1)] =
        some [(identifier "https://e.com/b/sitemap.xml", t2)] ∧
      countKey (identifier "https://e.com/a/sitemap.xml")
        [(identifier "https://e.com/b/sitemap.xml", t2)] = 1 ∧
      rowGet (t2.rows.getD 0 []) "Links" = some "https://www.datacamp.com/q" :=
  C6_identifier_collision respColl 0 "https://e.com/a/sitemap.xml"
    "https://e.com/b/sitemap.xml" "https://www.datacamp.com/p"
    "https://www.datacamp.com/q" (by decide) (by decide) (by decide)
    (by decide) (by decide)

/-! ### Claim C7 -/

theorem collectLoop_spec : ∀ (lines : List (List Char)),
    (∀ line ∈ lines, isPre "Sitemap:".toList line = true →
      2 ≤ (splitColonSpace line).length) →
    collectLoop lines = some ((lines.filter
      (fun line => isPre "Sitemap:".toList line)).map
      (fun line => String.mk (pyStripWs ((splitColonSpace line).getD 1 [])))) := by
  intro lines
  induction lines with
  | nil => intro _; rfl
  | cons line rest ih =>
    intro h
    by_cases hs : isPre "Sitemap:".toList line = true
    · have hlen := h line (by simp) hs
      have h1 : 1 < (splitColonSpace line).length := by omega
      have hg : (splitColonSpace line).get? 1 =
          some ((splitColonSpace line).getD 1 []) := by
        rw [List.get?_eq_getElem?, List.getElem?_eq_getElem h1]
        simp [List.getD, List.getElem?_eq_getElem h1]
      simp only [collectLoop, hs, if_true, hg]
      rw [ih (fun l hl => h l (by simp [hl]))]
      simp only [Option.map_some', List.filter_cons, hs, List.map_cons, if_true]
    · simp only [collectLoop, hs, if_false, Bool.false_eq_true]
      rw [ih (fun l hl => h l (by simp [hl]))]
      have hs' : isPre "Sitemap:".toList line = false := by
        simpa using hs
      simp only [List.filter_cons, hs', Bool.false_eq_true, if_false]

/-- C7 (amended): root discovery never raises *provided* every line
beginning with `Sitemap:` contains the colon-space separator `": "`; it
then extracts, per such line in file order, the whitespace-stripped text
between the first colon-space separator and the next one (the rest of
the line when there is no second separator), and a `robots.txt` with no
`Sitemap:` line yields the empty result.  A `Sitemap:`-prefixed line
with no `": "` raises `IndexError` (modelled as the `none` result). -/
theorem C7_collect_extraction (robots : String)
    (hok : ∀ line ∈ pySplit '\n' robots.toList,
      isPre "Sitemap:".toList line = true →
      2 ≤ (splitColonSpace line).length) :
    extractSitemapLinks robots = some
      (((pySplit '\n' robots.toList).filter
        (fun line => isPre "Sitemap:".toList line)).map
        (fun line => String.mk (pyStripWs ((splitColonSpace line).getD 1 [])))) ∧
    ((∀ line ∈ pySplit '\n' robots.toList,
        isPre "Sitemap:".toList line = false) →
      extractSitemapLinks robots = some []) := by
  have h1 := collectLoop_spec (pySplit '\n' robots.toList) hok
  constructor
  · exact h1
  · intro hnone
    unfold extractSitemapLinks
    rw [h1]
    have hf : (pySplit '\n' robots.toList).filter
        (fun line => isPre "Sitemap:".toList line) = [] := by
      apply List.filter_eq_nil_iff.mpr
      intro a ha
      rw [hnone a ha]
      simp
    rw [hf]
    rfl

theorem C7_collect_extraction_witness :
    extractSitemapLinks
        "User-agent: *\nSitemap: https://e.com/a.xml\nSitemap: https://e.com/b.xml" =
      some ["https://e.com/a.xml", "https://e.com/b.xml"] ∧
    extractSitemapLinks "User-agent: *\nDisallow: /tmp" = some [] := by
  constructor
  · rw [(C7_collect_extraction
      "User-agent: *\nSitemap: https://e.com/a.xml\nSitemap: https://e.com/b.xml"
      (by decide)).1]
    decide
  · exact (C7_collect_extraction "User-agent: *\nDisallow: /tmp"
      (by decide)).2 (by decide)

/-- The claim as stated is false on the code: a line starting with
`Sitemap:` but containing no colon-space separator makes
`line.split(": ")[1]` raise `IndexError` (the `none` result), rather
than silently yielding an empty result; moreover the extracted text of a
well-formed line is the segment *between* the first and second `": "`
separators, not everything following the first. -/
theorem C7_counterexample :
    extractSitemapLinks "Sitemap:https://e.com/s.xml" = none ∧
    extractSitemapLinks "Sitemap: a: b" = some ["a"] ∧
    ("a" : String) ≠ "a: b" := by
  refine ⟨by decide, by decide, by decide⟩

/-! ### Claim C8: export machinery -/

theorem pathJoin_csv_inj (folder k1 k2 : String)
    (h : pathJoin folder (k1 ++ ".csv") = pathJoin folder (k2 ++ ".csv")) :
    k1 = k2 := by
  unfold pathJoin at h
  have h1 := congrArg String.data h
  simp only [String.data_append, List.append_assoc] at h1
  have h2 := List.append_cancel_left h1
  have h3 := List.append_cancel_left h2
  have h4 := List.append_cancel_right h3
  cases k1
  cases k2
  exact congrArg String.mk h4

theorem lookup_map_replace_ne {β : Type} (k q : String) (v : β) (h : k ≠ q) :
    ∀ (fs : List (String × β)),
    List.lookup k (fs.map (fun p => if p.1 = q then (q, v) else p)) =
      List.lookup k fs := by
  intro fs
  induction fs with
  | nil => rfl
  | cons p rest ih =>
    simp only [List.map_cons]
    by_cases hp : p.1 = q
    · rw [if_pos hp]
      have hkq : (k == q) = false := by
        simp only [beq_eq_false_iff_ne, ne_eq]
        exact h
      have hkp : (k == p.1) = false := by
        simp only [beq_eq_false_iff_ne, ne_eq]
        rw [hp]
        exact h
      simp only [List.lookup, hkq, hkp, ih]
    · rw [if_neg hp]
      simp only [List.lookup, ih]

theorem lookup_append_single_ne {β : Type} (k q : String) (v : β) (h : k ≠ q) :
    ∀ (fs : List (String × β)),
    List.lookup k (fs ++ [(q, v)]) = List.lookup k fs := by
  intro fs
  induction fs with
  | nil =>
    have hkq : (k == q) = false := by
      simp only [beq_eq_false_iff_ne, ne_eq]
      exact h
    simp [List.lookup, hkq]
  | cons p rest ih =>
    simp only [List.cons_append, List.lookup]
    cases hkp : (k == p.1) <;> simp [hkp, ih]

theorem lookup_writeFile_self (files : List (String × String)) (p c : String) :
    List.lookup p (writeFile files p c) = some c := by
  unfold writeFile
  by_cases h : files.any (fun r => r.1 = p) = true
  · rw [if_pos h]
    exact lookup_map_replace p c files h
  · rw [if_neg h]
    exact lookup_append_single p c files (Bool.eq_false_iff.mpr h)

theorem lookup_writeFile_ne (files : List (String × String)) (p q c : String)
    (h : p ≠ q) : List.lookup p (writeFile files q c) = List.lookup p files := by
  unfold writeFile
  by_cases hq : files.any (fun r => r.1 = q) = true
  · rw [if_pos hq]
    exact lookup_map_replace_ne p q c h files
  · rw [if_neg hq]
    exact lookup_append_single_ne p q c h files

theorem foldWrite_lookup_other (folder p : String) :
    ∀ (entries : Frames) (files : List (String × String)),
    (∀ e ∈ entries, p ≠ pathJoin folder (e.1 ++ ".csv")) →
    List.lookup p (entries.foldl (fun acc e =>
      writeFile acc (pathJoin folder (e.1 ++ ".csv")) (renderCsv e.2)) files) =
    List.lookup p files := by
  intro entries
  induction entries with
  | nil => intro files _; rfl
  | cons e rest ih =>
    intro files hne
    rw [List.foldl_cons, ih _ (fun x hx => hne x (by simp [hx])),
      lookup_writeFile_ne _ _ _ _ (hne e (by simp))]

theorem foldWrite_lookup (folder : String) :
    ∀ (entries : Frames) (files : List (String × String)) (k : String) (t : Frame),
    (k, t) ∈ entries → (entries.map Prod.fst).Nodup →
    List.lookup (pathJoin folder (k ++ ".csv"))
      (entries.foldl (fun acc e =>
        writeFile acc (pathJoin folder (e.1 ++ ".csv")) (renderCsv e.2)) files) =
    some (renderCsv t) := by
  intro entries
  induction entries with
  | nil => intro files k t h; simp at h
  | cons e rest ih =>
    intro files k t hmem hnd
    rw [List.foldl_cons]
    rcases List.mem_cons.mp hmem with he | he
    · obtain rfl : e = (k, t) := he.symm
      have hnd2 : (k :: rest.map Prod.fst).Nodup := by simpa using hnd
      have hnotin : k ∉ rest.map Prod.fst := (List.nodup_cons.mp hnd2).1
      rw [foldWrite_lookup_other folder _ rest _ ?hother, lookup_writeFile_self]
      case hother =>
        intro x hx heq
        exact hnotin (List.mem_map.mpr ⟨x, hx,
          (pathJoin_csv_inj folder k x.1 heq).symm⟩)
    · refine ih _ k t he ?_
      have hnd2 : (e.1 :: rest.map Prod.fst).Nodup := by simpa using hnd
      exact (List.nodup_cons.mp hnd2).2

/-- The rendered CSV lines of a decomposed table: header
`Links,subdir1,...,subdirM`, then one line per URL with the URL field
followed by its segment fields (empty fields for null cells), no index
column. -/
theorem renderLines_process (links : List String) (t : Frame)
    (ht : process_links (mkFrame links) = some t) :
    (renderLines t).length = links.length + 1 ∧
    (renderLines t).getD 0 [] = commaJoin (("Links" ::
      (List.range (maxDepth links)).map (fun j => subdirName (j + 1))).map
        String.toList) ∧
    ∀ i, i < links.length → (renderLines t).getD (i + 1) [] =
      commaJoin (csvField (some (links.getD i "")) ::
        (List.range (maxDepth links)).map
          (fun j => csvField ((split_url (links.getD i "")).getD j none))) := by
  obtain ⟨t', ht', hcols, hlen, hlinks, hsub⟩ := process_links_mkFrame links
  rw [ht'] at ht
  obtain rfl : t' = t := by cases ht; rfl
  unfold renderLines
  refine ⟨by simp [hlen], by rw [List.getD_cons_zero, hcols], ?_⟩
  intro i hi
  rw [List.getD_cons_succ]
  have hilen : i < t'.rows.length := by rw [hlen]; exact hi
  have hmap : (t'.rows.map (fun r => commaJoin (t'.cols.map
      (fun c => csvField (rowGet r c))))).getD i [] =
      commaJoin (t'.cols.map (fun c => csvField (rowGet (t'.rows.getD i []) c))) := by
    simp [List.getD, List.getElem?_map, List.getElem?_eq_getElem hilen]
  rw [hmap, hcols]
  simp only [List.map_cons, List.map_map]
  rw [hlinks i hi]
  congr 1
  congr 1
  apply List.map_congr_left
  intro j hj
  simp only [Function.comp]
  rw [hsub i j hi]

/-! ### Claim C8 -/

/-- C8: export writes, for every entry of the identifier-to-table
mapping, one CSV file named `{identifier}.csv` inside the target
directory (creating the directory if absent): the file at path
`folder/{identifier}.csv` holds the rendered table, whose lines are the
header `Links,subdir1,...,subdirM` (`M` specific to that table), then
one line per leaf URL with null cells rendered as empty fields and no
row-index column. -/
theorem C8_export_one_file_per_entry (frames : Frames) (folder : String)
    (fs : FS) (k : String) (t : Frame) (links : List String)
    (hnodup : (frames.map Prod.fst).Nodup) (hent : (k, t) ∈ frames)
    (ht : process_links (mkFrame links) = some t) :
    folder ∈ (export_to_csv frames folder fs).dirs ∧
    List.lookup (pathJoin folder (k ++ ".csv"))
      (export_to_csv frames folder fs).files = some (renderCsv t) ∧
    (renderLines t).length = links.length + 1 ∧
    (renderLines t).getD 0 [] = commaJoin (("Links" ::
      (List.range (maxDepth links)).map (fun j => subdirName (j + 1))).map
        String.toList) ∧
    ∀ i, i < links.length → (renderLines t).getD (i + 1) [] =
      commaJoin (csvField (some (links.getD i "")) ::
        (List.range (maxDepth links)).map
          (fun j => csvField ((split_url (links.getD i "")).getD j none))) := by
  obtain ⟨hl1, hl2, hl3⟩ := renderLines_process links t ht
  refine ⟨?_, ?_, hl1, hl2, hl3⟩
  · by_cases hd : folder ∈ fs.dirs
    · simp [export_to_csv, hd]
    · simp [export_to_csv, hd]
  · by_cases hd : folder ∈ fs.dirs
    · simp only [export_to_csv, hd, if_true]
      exact foldWrite_lookup folder frames fs.files k t hent hnodup
    · simp only [export_to_csv, hd, if_false]
      exact foldWrite_lookup folder frames fs.files k t hent hnodup

theorem C8_export_one_file_per_entry_witness :
    "sitemaps" ∈ (export_to_csv [("s1", tableC8)] "sitemaps" ⟨[], []⟩).dirs ∧
    List.lookup (pathJoin "sitemaps" ("s1" ++ ".csv"))
      (export_to_csv [("s1", tableC8)] "sitemaps" ⟨[], []⟩).files =
      some (renderCsv tableC8) ∧
    renderCsv tableC8 = "Links,subdir1\nhttps://www.datacamp.com/a,a\n" := by
  have h := C8_export_one_file_per_entry [("s1", tableC8)] "sitemaps" ⟨[], []⟩
    "s1" tableC8 ["https://www.datacamp.com/a"] (by decide) (by simp)
    (by decide)
  exact ⟨h.1, h.2.1, by decide⟩
